import Mathlib

/-!
# Executability propagation and the SSH prompter environment

A verification development for two parts of the repository:

* `pkg/sync/executability.go`: `PropagateExecutability` and
  `StripExecutability` on entry trees;
* `ssh/prompt.go`: `prompterEnvironment`.

The entry tree functions are embedded twice.  The first embedding works on
tree values: a Go call that mutates the record behind `target` becomes a
function that returns the record after the call.  The second embedding keeps
the pointers: entries live in a heap of records, `Copy` allocates, and the
unexported functions write into the heap.  The second embedding is related
to the first one by a representation predicate.
-/

namespace Sync

/-! ## Entry trees as values -/

/-- Modelled from the spec: the declaration of `EntryKind` is not among the
sources.  The source names `EntryKind_Directory` and `EntryKind_File`; the
data model adds the symlink kind. -/
inductive EntryKind
  | Directory
  | File
  | Symlink
deriving DecidableEq, Repr

mutual
/-- Modelled from the spec: the declaration of `Entry` is not among the
sources.  A value of this type stands for a Go `*Entry`: `nil` is the nil
pointer (the absent entry), `mk` a pointer to a record.  The record carries
every field on every kind, as the Go struct does: the source reads `Kind`,
`Executable` and `Contents`; digest, size and symlink target are the
remaining fields of the data model. -/
inductive Entry where
  | nil : Entry
  | mk (Kind : EntryKind) (Executable : Bool) (Digest : List Nat) (Size : Nat)
      (Target : String) (Contents : Contents) : Entry
/-- A Go `map[string]*Entry`, as an association list from child name to child
pointer.  A Go map holds every name at most once (`Contents.KeysUnique`). -/
inductive Contents where
  | empty : Contents
  | cons (name : String) (entry : Entry) (rest : Contents) : Contents
end

mutual
/-- Decision procedure for equality of entries. -/
def Entry.decEq : (a b : Entry) → Decidable (a = b)
  | .nil, .nil => isTrue rfl
  | .nil, .mk .. => isFalse (by intro h; cases h)
  | .mk .., .nil => isFalse (by intro h; cases h)
  | .mk k x d s t c, .mk k' x' d' s' t' c' =>
    if hk : k = k' then
      if hx : x = x' then
        if hd : d = d' then
          if hs : s = s' then
            if ht : t = t' then
              match Contents.decEq c c' with
              | isTrue hc => isTrue (by subst hk hx hd hs ht hc; rfl)
              | isFalse hc => isFalse (by intro h; cases h; exact hc rfl)
            else isFalse (by intro h; cases h; exact ht rfl)
          else isFalse (by intro h; cases h; exact hs rfl)
        else isFalse (by intro h; cases h; exact hd rfl)
      else isFalse (by intro h; cases h; exact hx rfl)
    else isFalse (by intro h; cases h; exact hk rfl)
/-- Decision procedure for equality of contents maps. -/
def Contents.decEq : (a b : Contents) → Decidable (a = b)
  | .empty, .empty => isTrue rfl
  | .empty, .cons .. => isFalse (by intro h; cases h)
  | .cons .., .empty => isFalse (by intro h; cases h)
  | .cons n e r, .cons n' e' r' =>
    if hn : n = n' then
      match Entry.decEq e e' with
      | isTrue he =>
        match Contents.decEq r r' with
        | isTrue hr => isTrue (by subst hn he hr; rfl)
        | isFalse hr => isFalse (by intro h; cases h; exact hr rfl)
      | isFalse he => isFalse (by intro h; cases h; exact he rfl)
    else isFalse (by intro h; cases h; exact hn rfl)
end

instance : DecidableEq Entry := Entry.decEq

instance : DecidableEq Contents := Contents.decEq

/-- The names bound in a contents map. -/
def Contents.names : Contents → List String
  | .empty => []
  | .cons n _ r => n :: r.names

/-- Go map indexing `contents[name]`: the child stored under `name`, the nil
pointer when there is none. -/
def Contents.get : Contents → String → Entry
  | .empty, _ => .nil
  | .cons n e r, name => if n = name then e else r.get name

/-- Modelled from the spec: the getter `GetContents` is not among the sources.
It yields the children of an entry, and no children for the absent entry. -/
def Entry.GetContents : Entry → Contents
  | .nil => .empty
  | .mk _ _ _ _ _ c => c

/-- Modelled from the spec: `nameUnion` is not among the sources.  It yields
the set of child names present in either map (the walk goes over the union of
child names); the set is a list without repetition. -/
def nameUnion (first second : Contents) : List String :=
  (first.names ++ second.names).dedup

mutual
/-- Modelled from the spec: `Copy` is not among the sources.  Deep copy: the
copy of nil is nil, and a record is copied field by field with every child
copied in turn. -/
def Entry.Copy : Entry → Entry
  | .nil => .nil
  | .mk k x d s t c => .mk k x d s t c.Copy
/-- Deep copy of a contents map. -/
def Contents.Copy : Contents → Contents
  | .empty => .empty
  | .cons n e r => .cons n e.Copy r.Copy
end

mutual
/-- Value form of `propagateExecutability(source, target)`: the record behind
`target` after the call.  Nothing happens when either pointer is nil or the
kinds differ; a directory recurses over the names of `nameUnion`; a file
takes the executable flag of `source`. -/
def propagateExecutability (source : Entry) : Entry → Entry
  | .nil => .nil
  | .mk k x d s t c =>
    match source with
    | .nil => .mk k x d s t c
    | .mk k' x' _ _ _ c' =>
      if k' ≠ k then .mk k x d s t c
      else if k = .Directory then
        .mk k x d s t (propagateContents c' (nameUnion c' c) c)
      else if k = .File then .mk k x' d s t c
      else .mk k x d s t c
/-- The loop `for name := range names`, seen from the target map: the child
stored under a name of `names` is replaced by the outcome of the recursive
call on `ancestorContents[name]` and that child; a name of `names` under
which the target stores nothing gives a call on a nil target, which does
nothing. -/
def propagateContents (ancestorContents : Contents) (names : List String) :
    Contents → Contents
  | .empty => .empty
  | .cons n e r =>
    .cons n (if n ∈ names then propagateExecutability (ancestorContents.get n) e else e)
      (propagateContents ancestorContents names r)
end

/-- Value form of `PropagateExecutability`: copy the target, propagate into the copy. -/
def PropagateExecutability (source target : Entry) : Entry :=
  let result := target.Copy
  propagateExecutability source result

mutual
/-- Value form of `stripExecutability(snapshot)`: the record behind `snapshot`
after the call. -/
def stripExecutability : Entry → Entry
  | .nil => .nil
  | .mk k x d s t c =>
    if k = .Directory then .mk k x d s t (stripContents c)
    else if k = .File then .mk k false d s t c
    else .mk k x d s t c
/-- The loop `for _, entry := range snapshot.Contents`. -/
def stripContents : Contents → Contents
  | .empty => .empty
  | .cons n e r => .cons n (stripExecutability e) (stripContents r)
end

/-- Value form of `StripExecutability`: copy the snapshot, strip the copy. -/
def StripExecutability (snapshot : Entry) : Entry :=
  let result := snapshot.Copy
  stripExecutability result

/-! ## Observations on entry trees -/

/-- The kind of the record behind a pointer, `none` for the nil pointer. -/
def Entry.kind? : Entry → Option EntryKind
  | .nil => none
  | .mk k _ _ _ _ _ => some k

/-- The executable flag of the record behind a pointer. -/
def Entry.executable? : Entry → Option Bool
  | .nil => none
  | .mk _ x _ _ _ _ => some x

/-- The digest of the record behind a pointer. -/
def Entry.digest? : Entry → Option (List Nat)
  | .nil => none
  | .mk _ _ d _ _ _ => some d

/-- The size of the record behind a pointer. -/
def Entry.size? : Entry → Option Nat
  | .nil => none
  | .mk _ _ _ s _ _ => some s

/-- The symlink target of the record behind a pointer. -/
def Entry.target? : Entry → Option String
  | .nil => none
  | .mk _ _ _ _ t _ => some t

/-- The entry a path of child names leads to, nil when a name is missing on
the way. -/
def Entry.atPath : Entry → List String → Entry
  | e, [] => e
  | e, n :: p => (e.GetContents.get n).atPath p

/-- Every proper prefix of `p` leads to a Directory entry of `e`. -/
def Entry.DirectoriesAbove (e : Entry) (p : List String) : Prop :=
  ∀ q : List String, q <+: p → q ≠ p → (e.atPath q).kind? = some EntryKind.Directory

/-- Executable form of `DirectoriesAbove`. -/
def Entry.dirsAbove : Entry → List String → Bool
  | _, [] => true
  | e, n :: p =>
    decide (e.kind? = some EntryKind.Directory) && (e.GetContents.get n).dirsAbove p

mutual
/-- Every contents map of the tree holds each name once, as a Go map does. -/
def Entry.KeysUnique : Entry → Prop
  | .nil => True
  | .mk _ _ _ _ _ c => c.KeysUnique
/-- The map holds each name once, and so does every child. -/
def Contents.KeysUnique : Contents → Prop
  | .empty => True
  | .cons n e r => n ∉ r.names ∧ e.KeysUnique ∧ r.KeysUnique
end

mutual
/-- The number of records on the longest way down the tree. -/
def Entry.depth : Entry → Nat
  | .nil => 0
  | .mk _ _ _ _ _ c => c.depth + 1
/-- The largest depth of a child. -/
def Contents.depth : Contents → Nat
  | .empty => 0
  | .cons _ e r => max e.depth r.depth
end

/-- A source tree with an executable file under the name a. -/
def sampleSource : Entry :=
  .mk .Directory false [] 0 "" (.cons "a" (.mk .File true [7] 1 "" .empty) .empty)

/-- A target tree with a file under a that is not executable and a file under b. -/
def sampleTarget : Entry :=
  .mk .Directory false [] 0 ""
    (.cons "a" (.mk .File false [9] 2 "" .empty)
      (.cons "b" (.mk .File true [3] 4 "" .empty) .empty))

/-! ## Entry trees in a heap

The same functions with the pointers kept.  A heap is the list of all
allocated `Entry` records; a pointer is nil or the index of a record.  The
recursive functions take a bound on the number of nested calls and give
`none` when it is exhausted (or when a pointer dangles, which Go rules out).
-/

namespace Mem

/-- An `Entry` record in memory; the values of the `Contents` map are pointers. -/
structure Record where
  Kind : EntryKind
  Executable : Bool
  Digest : List Nat
  Size : Nat
  Target : String
  Contents : List (String × Option Nat)
deriving DecidableEq

/-- A Go `*Entry`: nil or the address of a record. -/
abbrev Pointer := Option Nat

/-- All records allocated so far, by address. -/
abbrev Heap := List Record

/-- Go map indexing `contents[name]` on a map of pointers. -/
def index : List (String × Pointer) → String → Pointer
  | [], _ => none
  | (n, p) :: r, name => if n = name then p else index r name

/-- Modelled from the spec: `nameUnion` is not among the sources; the set of
names bound in either map. -/
def nameUnion (first second : List (String × Pointer)) : List String :=
  (first.map Prod.fst ++ second.map Prod.fst).dedup

/-- Copies every child of a map with `copy`, threading the heap. -/
def copyContents (copy : Heap → Pointer → Option (Heap × Pointer)) :
    Heap → List (String × Pointer) → Option (Heap × List (String × Pointer))
  | h, [] => some (h, [])
  | h, (n, p) :: r =>
    match copy h p with
    | none => none
    | some (h1, q) =>
      match copyContents copy h1 r with
      | none => none
      | some (h2, r2) => some (h2, (n, q) :: r2)

/-- Modelled from the spec: `Copy` is not among the sources.  Deep copy: nil
copies to nil; for a record every child is copied and a fresh record with the
same fields and the copied children is allocated.  Nothing is written to a
record that existed before. -/
def Copy : Nat → Heap → Pointer → Option (Heap × Pointer)
  | _, h, none => some (h, none)
  | 0, _, some _ => none
  | fuel + 1, h, some a =>
    match h[a]? with
    | none => none
    | some e =>
      match copyContents (Copy fuel) h e.Contents with
      | none => none
      | some (h1, contents) =>
        some (h1 ++ [⟨e.Kind, e.Executable, e.Digest, e.Size, e.Target, contents⟩],
          some h1.length)

/-- The function `propagateExecutability` with its writes: the heap after the call. -/
def propagateExecutability : Nat → Heap → Pointer → Pointer → Option Heap
  | _, h, none, _ => some h
  | _, h, some _, none => some h
  | 0, _, some _, some _ => none
  | fuel + 1, h, some s, some t =>
    match h[s]?, h[t]? with
    | some source, some target =>
      if source.Kind ≠ target.Kind then some h
      else if target.Kind = EntryKind.Directory then
        (nameUnion source.Contents target.Contents).foldlM
          (fun h name =>
            propagateExecutability fuel h (index source.Contents name)
              (index target.Contents name)) h
      else if target.Kind = EntryKind.File then
        some (h.set t ⟨target.Kind, source.Executable, target.Digest, target.Size,
          target.Target, target.Contents⟩)
      else some h
    | _, _ => none

/-- The function `PropagateExecutability`: the heap after the call and the returned pointer. -/
def PropagateExecutability (fuel : Nat) (h : Heap) (source target : Pointer) :
    Option (Heap × Pointer) :=
  match Copy fuel h target with
  | none => none
  | some (h1, result) =>
    match propagateExecutability fuel h1 source result with
    | none => none
    | some h2 => some (h2, result)

/-- The function `stripExecutability` with its writes: the heap after the call. -/
def stripExecutability : Nat → Heap → Pointer → Option Heap
  | _, h, none => some h
  | 0, _, some _ => none
  | fuel + 1, h, some a =>
    match h[a]? with
    | none => none
    | some snapshot =>
      if snapshot.Kind = EntryKind.Directory then
        snapshot.Contents.foldlM (fun h entry => stripExecutability fuel h entry.2) h
      else if snapshot.Kind = EntryKind.File then
        some (h.set a ⟨snapshot.Kind, false, snapshot.Digest, snapshot.Size,
          snapshot.Target, snapshot.Contents⟩)
      else some h

/-- The function `StripExecutability`: the heap after the call and the returned pointer. -/
def StripExecutability (fuel : Nat) (h : Heap) (snapshot : Pointer) :
    Option (Heap × Pointer) :=
  match Copy fuel h snapshot with
  | none => none
  | some (h1, result) =>
    match stripExecutability fuel h1 result with
    | none => none
    | some h2 => some (h2, result)

mutual
/-- The pointer `p` leads, in heap `h`, to exactly the tree given as a value:
structural equality of what is behind a pointer with a tree. -/
def represents (h : Heap) : Pointer → Entry → Bool
  | none, .nil => true
  | some _, .nil => false
  | none, .mk _ _ _ _ _ _ => false
  | some a, .mk k x d s t c =>
    match h[a]? with
    | none => false
    | some e =>
      decide (e.Kind = k) && decide (e.Executable = x) && decide (e.Digest = d)
        && decide (e.Size = s) && decide (e.Target = t) && representsContents h e.Contents c
/-- The map of pointers binds the names of the map of trees, in the same
order, to pointers that lead to the trees. -/
def representsContents (h : Heap) : List (String × Pointer) → Contents → Bool
  | [], .empty => true
  | [], .cons _ _ _ => false
  | _ :: _, .empty => false
  | (n, p) :: m, .cons n' e r =>
    decide (n = n') && represents h p e && representsContents h m r
end

/-- Every record of `h` is found unchanged at the same address of `h2`. -/
def Extends (h h2 : Heap) : Prop :=
  ∀ (a : Nat) (e : Record), h[a]? = some e → h2[a]? = some e

/-- The heaps have the same size and differ at most at addresses from `lo` up to `hi`. -/
def SameOutside (lo hi : Nat) (h h2 : Heap) : Prop :=
  h2.length = h.length ∧ ∀ a : Nat, a < lo ∨ hi ≤ a → h2[a]? = h[a]?

mutual
/-- The pointer leads to the tree, and the records of the tree lie at
addresses from `lo` up to `hi`, every record at an address of its own: the
children of a record lie side by side below the record. -/
def Owned (h : Heap) : Pointer → Entry → Nat → Nat → Prop
  | p, .nil, lo, hi => p = none ∧ lo ≤ hi
  | p, .mk k x d s t c, lo, hi =>
    ∃ (a : Nat) (m : List (String × Pointer)),
      p = some a ∧ h[a]? = some ⟨k, x, d, s, t, m⟩ ∧ a < hi ∧ OwnedContents h m c lo a
/-- The children of a map lie side by side from `lo` up to `hi`. -/
def OwnedContents (h : Heap) : List (String × Pointer) → Contents → Nat → Nat → Prop
  | m, .empty, lo, hi => m = [] ∧ lo ≤ hi
  | m, .cons n e r, lo, hi =>
    ∃ (p : Pointer) (m2 : List (String × Pointer)) (mid : Nat),
      m = (n, p) :: m2 ∧ Owned h p e lo mid ∧ OwnedContents h m2 r mid hi
end

/-- A heap that holds `sampleSource` behind address 1 and `sampleTarget` behind address 4. -/
def sampleHeap : Heap :=
  [⟨.File, true, [7], 1, "", []⟩,
   ⟨.Directory, false, [], 0, "", [("a", some 0)]⟩,
   ⟨.File, false, [9], 2, "", []⟩,
   ⟨.File, true, [3], 4, "", []⟩,
   ⟨.Directory, false, [], 0, "", [("a", some 2), ("b", some 3)]⟩]

end Mem

end Sync

/-! ## The prompter environment -/

namespace Base64

/-- The alphabet of the standard encoding (`encodeStd` of Go's `encoding/base64`). -/
def encodeStd : List Char :=
  "ABCDEFGHIJKLMNOPQRSTUVWXYZabcdefghijklmnopqrstuvwxyz0123456789+/".toList

/-- The character for a six-bit value. -/
def digit (n : Nat) : Char := encodeStd.getD n 'A'

/-- The six-bit value of a character of the alphabet. -/
def value (c : Char) : Option Nat :=
  if List.indexOf c encodeStd < 64 then some (List.indexOf c encodeStd) else none

/-- Standard base64 with padding (RFC 4648) on a list of bytes: three bytes
give four characters, a rest of one or two bytes is padded with the character
for padding. -/
def encode : List Nat → List Char
  | [] => []
  | [a] => [digit (a / 4), digit (a % 4 * 16), '=', '=']
  | [a, b] => [digit (a / 4), digit (a % 4 * 16 + b / 16), digit (b % 16 * 4), '=']
  | a :: b :: c :: rest =>
    digit (a / 4) :: digit (a % 4 * 16 + b / 16) :: digit (b % 16 * 4 + c / 64)
      :: digit (c % 64) :: encode rest

/-- Decoding of standard base64 with padding; `none` on malformed input. -/
def decode : List Char → Option (List Nat)
  | [] => some []
  | [c0, c1, c2, c3] =>
    match value c0, value c1 with
    | some s0, some s1 =>
      if c2 = '=' ∧ c3 = '=' then some [s0 * 4 + s1 / 16]
      else
        match value c2 with
        | none => none
        | some s2 =>
          if c3 = '=' then some [s0 * 4 + s1 / 16, s1 % 16 * 16 + s2 / 4]
          else
            match value c3 with
            | none => none
            | some s3 => some [s0 * 4 + s1 / 16, s1 % 16 * 16 + s2 / 4, s2 % 4 * 64 + s3]
    | _, _ => none
  | c0 :: c1 :: c2 :: c3 :: rest =>
    match value c0, value c1, value c2, value c3, decode rest with
    | some s0, some s1, some s2, some s3, some out =>
      some ((s0 * 4 + s1 / 16) :: (s1 % 16 * 16 + s2 / 4) :: (s2 % 4 * 64 + s3) :: out)
    | _, _, _, _, _ => none
  | _ => none

/-- Go's `base64.StdEncoding.EncodeToString`. -/
def EncodeToString (src : List Nat) : String := String.mk (encode src)

/-- Go's `base64.StdEncoding.DecodeString`, `none` for an error. -/
def DecodeString (s : String) : Option (List Nat) := decode s.data

end Base64

namespace Ssh

/-- The name of the variable that carries the prompter. -/
def PrompterEnvironmentVariable : String := "MUTAGEN_PROMPTER"

/-- The name of the variable that carries the encoded context. -/
def PrompterContextBase64EnvironmentVariable : String := "MUTAGEN_PROMPTER_CONTEXT_BASE64"

/-- A Go `map[string]string`: every name is bound at most once. -/
abbrev Variables := AList (fun _ : String => String)

/-- The conversion `[]byte(s)`: the bytes of the string (UTF-8). -/
def bytes (s : String) : List Nat := s.toUTF8.data.toList.map UInt8.toNat

/-- The function `prompterEnvironment`.  The collaborators from other packages
are parameters: `Format` for `environment.Format`, `Current` for
`environment.Current` and `ExecutablePath` for `process.Current.ExecutablePath`.
The nil slice is `none`. -/
def prompterEnvironment (Format : Variables → List String) (Current : Variables)
    (ExecutablePath : String) (prompter context : String) : Option (List String) :=
  if prompter = "" then none
  else
    let contextBase64 := Base64.EncodeToString (bytes context)
    let result : Variables := Current.entries.foldl (fun r kv => r.insert kv.1 kv.2) ∅
    let result := result.insert "SSH_ASKPASS" ExecutablePath
    let result := result.insert "DISPLAY" "mutagen"
    let result := result.insert PrompterEnvironmentVariable prompter
    let result := result.insert PrompterContextBase64EnvironmentVariable contextBase64
    some (Format result)

end Ssh

namespace Sync

/-! ## Basic facts -/

mutual
theorem Entry.Copy_eq : ∀ e : Entry, e.Copy = e
  | .nil => by simp [Entry.Copy]
  | .mk k x d s t c => by simp [Entry.Copy, Contents.Copy_contents_eq c]
theorem Contents.Copy_contents_eq : ∀ c : Contents, c.Copy = c
  | .empty => by simp [Contents.Copy]
  | .cons n e r => by simp [Contents.Copy, Entry.Copy_eq e, Contents.Copy_contents_eq r]
end

theorem mem_nameUnion_right (a c : Contents) {n : String} (h : n ∈ c.names) :
    n ∈ nameUnion a c := by
  simp [nameUnion, h]

mutual
theorem strip_propagate_aux : ∀ (s t : Entry),
    stripExecutability (propagateExecutability s t) = stripExecutability t
  | _, .nil => by simp [propagateExecutability]
  | .nil, .mk k x d sz tg c => by simp [propagateExecutability]
  | .mk k' x' d' sz' tg' c', .mk k x d sz tg c => by
    simp only [propagateExecutability]
    by_cases hk : k' = k
    · by_cases hd : k = EntryKind.Directory
      · simp [hk, hd, stripExecutability, strip_propagate_contents_aux c' (nameUnion c' c) c]
      · by_cases hf : k = EntryKind.File
        · simp [hk, hf, stripExecutability]
        · simp [hk, hd, hf, stripExecutability]
    · simp [hk]
theorem strip_propagate_contents_aux : ∀ (a : Contents) (names : List String) (c : Contents),
    stripContents (propagateContents a names c) = stripContents c
  | _, _, .empty => by simp [propagateContents]
  | a, names, .cons n e r => by
    simp only [propagateContents, stripContents]
    rw [strip_propagate_contents_aux a names r]
    by_cases hn : n ∈ names
    · simp [hn, strip_propagate_aux (a.get n) e]
    · simp [hn]
end

mutual
theorem strip_strip_aux : ∀ e : Entry,
    stripExecutability (stripExecutability e) = stripExecutability e
  | .nil => by simp [stripExecutability]
  | .mk k x d sz tg c => by
    by_cases hd : k = EntryKind.Directory
    · simp [hd, stripExecutability, strip_strip_contents_aux c]
    · by_cases hf : k = EntryKind.File
      · simp [hf, stripExecutability]
      · simp [hd, hf, stripExecutability]
theorem strip_strip_contents_aux : ∀ c : Contents,
    stripContents (stripContents c) = stripContents c
  | .empty => by simp [stripContents]
  | .cons n e r => by
    simp [stripContents, strip_strip_aux e, strip_strip_contents_aux r]
end

theorem propagate_nil_source (t : Entry) : propagateExecutability Entry.nil t = t := by
  cases t <;> simp [propagateExecutability]

theorem Contents.get_of_not_mem : ∀ (c : Contents) (n : String), n ∉ c.names → c.get n = Entry.nil
  | .empty, _, _ => by simp [Contents.get]
  | .cons m e r, n, h => by
    simp only [Contents.names, List.mem_cons, not_or] at h
    have hne : ¬ m = n := fun hmn => h.1 hmn.symm
    simp [Contents.get, hne, Contents.get_of_not_mem r n h.2]

theorem get_propagateContents : ∀ (a : Contents) (names : List String) (c : Contents) (n : String),
    (propagateContents a names c).get n
      = if n ∈ names then propagateExecutability (a.get n) (c.get n) else c.get n
  | _, _, .empty, _ => by simp [propagateContents, Contents.get, propagateExecutability]
  | a, names, .cons m e r, n => by
    simp only [propagateContents, Contents.get]
    by_cases hmn : m = n
    · subst hmn; simp
    · simp [hmn, get_propagateContents a names r n]

theorem get_propagateContents_union (a c : Contents) (n : String) :
    (propagateContents a (nameUnion a c) c).get n = propagateExecutability (a.get n) (c.get n) := by
  rw [get_propagateContents]
  by_cases hn : n ∈ nameUnion a c
  · simp [hn]
  · have hc : n ∉ c.names := fun h => hn (mem_nameUnion_right a c h)
    simp [hn, Contents.get_of_not_mem c n hc, propagateExecutability]

theorem get_stripContents : ∀ (c : Contents) (n : String),
    (stripContents c).get n = stripExecutability (c.get n)
  | .empty, _ => by simp [stripContents, Contents.get, stripExecutability]
  | .cons m e r, n => by
    simp only [stripContents, Contents.get]
    by_cases hmn : m = n
    · simp [hmn]
    · simp [hmn, get_stripContents r n]

theorem names_stripContents : ∀ c : Contents, (stripContents c).names = c.names
  | .empty => by simp [stripContents]
  | .cons m e r => by simp [stripContents, Contents.names, names_stripContents r]

theorem Entry.dirsAbove_iff (e : Entry) (p : List String) :
    e.dirsAbove p = true ↔ e.DirectoriesAbove p := by
  induction p generalizing e with
  | nil =>
    simp only [Entry.dirsAbove, Entry.DirectoriesAbove, true_iff]
    intro q hq hne
    exact absurd (List.prefix_nil.1 hq) hne
  | cons n p ih =>
    simp only [Entry.dirsAbove, Bool.and_eq_true, decide_eq_true_eq]
    constructor
    · rintro ⟨hk, hrest⟩ q hq hne
      cases q with
      | nil => simpa [Entry.atPath] using hk
      | cons m q =>
        rw [List.cons_prefix_cons] at hq
        obtain ⟨hmn, hq⟩ := hq
        subst hmn
        have hne2 : q ≠ p := fun h => hne (by rw [h])
        simpa [Entry.atPath] using (ih _).1 hrest q hq hne2
    · intro h
      refine ⟨?_, (ih _).2 ?_⟩
      · simpa [Entry.atPath] using h [] (List.nil_prefix) (by simp)
      · intro q hq hne
        have := h (n :: q) (by simpa [List.cons_prefix_cons] using hq) (by simpa using hne)
        simpa [Entry.atPath] using this

theorem atPath_propagate (S T : Entry) (p : List String)
    (hS : S.dirsAbove p = true) (hT : T.dirsAbove p = true) :
    (propagateExecutability S T).atPath p
      = propagateExecutability (S.atPath p) (T.atPath p) := by
  induction p generalizing S T with
  | nil => rfl
  | cons n p ih =>
    simp only [Entry.dirsAbove, Bool.and_eq_true, decide_eq_true_eq] at hS hT
    cases S with
    | nil => simp [Entry.kind?] at hS
    | mk k' x' d' sz' tg' c' =>
      cases T with
      | nil => simp [Entry.kind?] at hT
      | mk k x d sz tg c =>
        simp only [Entry.kind?, Option.some.injEq] at hS hT
        obtain ⟨hk', hS⟩ := hS
        obtain ⟨hk, hT⟩ := hT
        subst hk' hk
        simp only [Entry.GetContents] at hS hT
        simp [propagateExecutability, Entry.atPath, Entry.GetContents,
          get_propagateContents_union, ih _ _ hS hT]

theorem atPath_strip (T : Entry) (p : List String) :
    (stripExecutability T).atPath p
      = if T.dirsAbove p = true then stripExecutability (T.atPath p) else T.atPath p := by
  induction p generalizing T with
  | nil => simp [Entry.dirsAbove, Entry.atPath]
  | cons n p ih =>
    cases T with
    | nil => simp [stripExecutability, Entry.dirsAbove, Entry.kind?]
    | mk k x d sz tg c =>
      by_cases hd : k = EntryKind.Directory
      · subst hd
        simp [stripExecutability, Entry.atPath, Entry.GetContents, get_stripContents, ih,
          Entry.dirsAbove, Entry.kind?]
      · by_cases hf : k = EntryKind.File
        · subst hf
          simp [stripExecutability, Entry.atPath, Entry.GetContents, Entry.dirsAbove,
            Entry.kind?]
        · simp [stripExecutability, Entry.atPath, Entry.GetContents, Entry.dirsAbove,
            Entry.kind?, hd, hf]

theorem kind_strip (e : Entry) : (stripExecutability e).kind? = e.kind? := by
  cases e with
  | nil => rfl
  | mk k x d sz tg c =>
    by_cases hd : k = EntryKind.Directory
    · simp [stripExecutability, hd, Entry.kind?]
    · by_cases hf : k = EntryKind.File <;> simp [stripExecutability, hd, hf, Entry.kind?]

theorem digest_strip (e : Entry) : (stripExecutability e).digest? = e.digest? := by
  cases e with
  | nil => rfl
  | mk k x d sz tg c =>
    by_cases hd : k = EntryKind.Directory
    · simp [stripExecutability, hd, Entry.digest?]
    · by_cases hf : k = EntryKind.File <;> simp [stripExecutability, hd, hf, Entry.digest?]

theorem size_strip (e : Entry) : (stripExecutability e).size? = e.size? := by
  cases e with
  | nil => rfl
  | mk k x d sz tg c =>
    by_cases hd : k = EntryKind.Directory
    · simp [stripExecutability, hd, Entry.size?]
    · by_cases hf : k = EntryKind.File <;> simp [stripExecutability, hd, hf, Entry.size?]

theorem target_strip (e : Entry) : (stripExecutability e).target? = e.target? := by
  cases e with
  | nil => rfl
  | mk k x d sz tg c =>
    by_cases hd : k = EntryKind.Directory
    · simp [stripExecutability, hd, Entry.target?]
    · by_cases hf : k = EntryKind.File <;> simp [stripExecutability, hd, hf, Entry.target?]

theorem names_strip (e : Entry) :
    (stripExecutability e).GetContents.names = e.GetContents.names := by
  cases e with
  | nil => rfl
  | mk k x d sz tg c =>
    by_cases hd : k = EntryKind.Directory
    · simp [stripExecutability, hd, Entry.GetContents, names_stripContents]
    · by_cases hf : k = EntryKind.File <;> simp [stripExecutability, hd, hf, Entry.GetContents]

theorem executable_strip (e : Entry) :
    (stripExecutability e).executable?
      = if e.kind? = some EntryKind.File then some false else e.executable? := by
  cases e with
  | nil => rfl
  | mk k x d sz tg c =>
    by_cases hd : k = EntryKind.Directory
    · simp [stripExecutability, hd, Entry.executable?, Entry.kind?]
    · by_cases hf : k = EntryKind.File <;>
        simp [stripExecutability, hd, hf, Entry.executable?, Entry.kind?]

mutual
theorem propagate_strip_aux : ∀ T : Entry, T.KeysUnique →
    propagateExecutability T (stripExecutability T) = T
  | .nil, _ => by simp [stripExecutability, propagateExecutability]
  | .mk k x d sz tg c, h => by
    simp only [Entry.KeysUnique] at h
    by_cases hd : k = EntryKind.Directory
    · subst hd
      have hc := propagate_strip_contents_aux c (nameUnion c (stripContents c)) c
        (fun n hn => by simp [nameUnion, hn]) (fun n _ => rfl) h
      simp [stripExecutability, propagateExecutability, hc]
    · by_cases hf : k = EntryKind.File
      · subst hf
        simp [stripExecutability, propagateExecutability]
      · simp [stripExecutability, propagateExecutability, hd, hf]
theorem propagate_strip_contents_aux : ∀ (a : Contents) (names : List String) (c : Contents),
    (∀ n ∈ c.names, n ∈ names) → (∀ n ∈ c.names, a.get n = c.get n) → c.KeysUnique →
    propagateContents a names (stripContents c) = c
  | _, _, .empty, _, _, _ => by simp [stripContents, propagateContents]
  | a, names, .cons m e r, hsub, hget, hu => by
    simp only [Contents.KeysUnique] at hu
    obtain ⟨hm, he, hr⟩ := hu
    have hmem : m ∈ names := hsub m (by simp [Contents.names])
    have hae : a.get m = e := by
      have := hget m (by simp [Contents.names])
      simpa [Contents.get] using this
    have hrest := propagate_strip_contents_aux a names r
      (fun n hn => hsub n (by simp [Contents.names, hn]))
      (fun n hn => by
        have hne : ¬ m = n := fun hmn => hm (hmn ▸ hn)
        have := hget n (by simp [Contents.names, hn])
        simpa [Contents.get, hne] using this)
      hr
    simp [stripContents, propagateContents, hmem, hae, propagate_strip_aux e he, hrest]
end

/-! ## Facts about the heap embedding -/

namespace Mem

theorem extends_refl (h : Heap) : Extends h h := fun _ _ he => he

theorem Extends.step {h1 h2 h3 : Heap} (h12 : Extends h1 h2) (h23 : Extends h2 h3) :
    Extends h1 h3 := fun a e he => h23 a e (h12 a e he)

theorem extends_append (h l : Heap) : Extends h (h ++ l) := by
  intro a e he
  have hlt : a < h.length := by
    by_contra hge
    rw [List.getElem?_eq_none (Nat.le_of_not_lt hge)] at he
    cases he
  rw [List.getElem?_append_left hlt]
  exact he

theorem sameOutside_refl (lo hi : Nat) (h : Heap) : SameOutside lo hi h h :=
  ⟨rfl, fun _ _ => rfl⟩

theorem SameOutside.chain {lo hi : Nat} {h1 h2 h3 : Heap}
    (h12 : SameOutside lo hi h1 h2) (h23 : SameOutside lo hi h2 h3) :
    SameOutside lo hi h1 h3 :=
  ⟨h23.1.trans h12.1, fun a ha => (h23.2 a ha).trans (h12.2 a ha)⟩

theorem SameOutside.wider {lo hi lo2 hi2 : Nat} {h1 h2 : Heap}
    (hs : SameOutside lo hi h1 h2) (hlo : lo2 ≤ lo) (hhi : hi ≤ hi2) :
    SameOutside lo2 hi2 h1 h2 :=
  ⟨hs.1, fun a ha => hs.2 a (by omega)⟩

theorem SameOutside.extends_of_le {lo hi : Nat} {h0 h1 h2 : Heap}
    (hs : SameOutside lo hi h1 h2) (hx : Extends h0 h1) (hlen : h0.length ≤ lo) :
    Extends h0 h2 := by
  intro a e he
  have hlt : a < h0.length := by
    by_contra hge
    rw [List.getElem?_eq_none (Nat.le_of_not_lt hge)] at he
    cases he
  rw [hs.2 a (Or.inl (by omega))]
  exact hx a e he

theorem sameOutside_set (h : Heap) (a : Nat) (e : Record) (lo hi : Nat)
    (hlo : lo ≤ a) (hhi : a < hi) : SameOutside lo hi h (h.set a e) := by
  refine ⟨by simp, fun b hb => ?_⟩
  have hne : a ≠ b := by omega
  simp [List.getElem?_set, hne]

theorem represents_mk_iff (h : Heap) (p : Pointer) (k : EntryKind) (x : Bool) (d : List Nat)
    (s : Nat) (t : String) (c : Contents) :
    represents h p (Entry.mk k x d s t c) = true ↔
      ∃ (a : Nat) (m : List (String × Pointer)),
        p = some a ∧ h[a]? = some ⟨k, x, d, s, t, m⟩ ∧ representsContents h m c = true := by
  cases p with
  | none => simp [represents]
  | some a =>
    unfold represents
    split
    · rename_i hget
      simp [hget]
    · rename_i e hget
      cases e with
      | mk k2 x2 d2 s2 t2 m2 =>
        simp only [Bool.and_eq_true, decide_eq_true_eq, Option.some.injEq, hget]
        constructor
        · rintro ⟨⟨⟨⟨⟨hk, hx⟩, hd⟩, hs⟩, ht⟩, hc⟩
          subst hk hx hd hs ht
          exact ⟨a, m2, rfl, hget, hc⟩
        · rintro ⟨b, m, hab, hrec, hc⟩
          subst hab
          rw [hget] at hrec
          injection hrec with hrec
          injection hrec with hk hx hd hs ht hm
          subst hm
          exact ⟨⟨⟨⟨⟨hk, hx⟩, hd⟩, hs⟩, ht⟩, hc⟩

theorem represents_nil_iff (h : Heap) (p : Pointer) :
    represents h p Entry.nil = true ↔ p = none := by
  cases p <;> simp [represents]

theorem representsContents_empty_iff (h : Heap) (m : List (String × Pointer)) :
    representsContents h m Contents.empty = true ↔ m = [] := by
  cases m <;> simp [representsContents]

theorem representsContents_cons_iff (h : Heap) (m : List (String × Pointer)) (n : String)
    (e : Entry) (r : Contents) :
    representsContents h m (Contents.cons n e r) = true ↔
      ∃ (p : Pointer) (m2 : List (String × Pointer)),
        m = (n, p) :: m2 ∧ represents h p e = true ∧ representsContents h m2 r = true := by
  cases m with
  | nil => simp [representsContents]
  | cons np m2 =>
    obtain ⟨n2, p⟩ := np
    simp only [representsContents, Bool.and_eq_true, decide_eq_true_eq]
    constructor
    · rintro ⟨⟨hn, hp⟩, hr⟩
      exact ⟨p, m2, by rw [hn], hp, hr⟩
    · rintro ⟨q, m3, heq, hp, hr⟩
      simp only [List.cons.injEq, Prod.mk.injEq] at heq
      obtain ⟨⟨hn, hq⟩, hm⟩ := heq
      subst hn hq hm
      exact ⟨⟨rfl, hp⟩, hr⟩

mutual
theorem represents_extends : ∀ (T : Entry) (h h2 : Heap) (p : Pointer),
    Extends h h2 → represents h p T = true → represents h2 p T = true
  | .nil, h, h2, p, _, hr => by
    rw [represents_nil_iff] at hr ⊢
    exact hr
  | .mk k x d s t c, h, h2, p, hx, hr => by
    rw [represents_mk_iff] at hr ⊢
    obtain ⟨a, m, hp, hget, hc⟩ := hr
    exact ⟨a, m, hp, hx a _ hget, representsContents_extends c h h2 m hx hc⟩
theorem representsContents_extends : ∀ (C : Contents) (h h2 : Heap)
    (m : List (String × Pointer)),
    Extends h h2 → representsContents h m C = true → representsContents h2 m C = true
  | .empty, h, h2, m, _, hr => by
    rw [representsContents_empty_iff] at hr ⊢
    exact hr
  | .cons n e r, h, h2, m, hx, hr => by
    rw [representsContents_cons_iff] at hr ⊢
    obtain ⟨p, m2, hm, hp, hrest⟩ := hr
    exact ⟨p, m2, hm, represents_extends e h h2 p hx hp,
      representsContents_extends r h h2 m2 hx hrest⟩
end

mutual
theorem owned_le : ∀ (T : Entry) (h : Heap) (p : Pointer) (lo hi : Nat),
    Owned h p T lo hi → lo ≤ hi
  | .nil, _, _, _, _, ho => by
    simp only [Owned] at ho
    exact ho.2
  | .mk k x d s t c, h, p, lo, hi, ho => by
    simp only [Owned] at ho
    obtain ⟨a, m, _, _, hlt, hc⟩ := ho
    have := ownedContents_le c h m lo a hc
    omega
theorem ownedContents_le : ∀ (C : Contents) (h : Heap) (m : List (String × Pointer))
    (lo hi : Nat), OwnedContents h m C lo hi → lo ≤ hi
  | .empty, _, _, _, _, ho => by
    simp only [OwnedContents] at ho
    exact ho.2
  | .cons n e r, h, m, lo, hi, ho => by
    simp only [OwnedContents] at ho
    obtain ⟨p, m2, mid, _, hp, hr⟩ := ho
    have h1 := owned_le e h p lo mid hp
    have h2 := ownedContents_le r h m2 mid hi hr
    omega
end

mutual
theorem owned_frame : ∀ (T : Entry) (h h2 : Heap) (p : Pointer) (lo hi : Nat),
    (∀ a : Nat, lo ≤ a → a < hi → h2[a]? = h[a]?) → Owned h p T lo hi → Owned h2 p T lo hi
  | .nil, _, _, _, _, _, _, ho => by
    simp only [Owned] at ho ⊢
    exact ho
  | .mk k x d s t c, h, h2, p, lo, hi, hsame, ho => by
    simp only [Owned] at ho ⊢
    obtain ⟨a, m, hp, hget, hlt, hc⟩ := ho
    have hle := ownedContents_le c h m lo a hc
    refine ⟨a, m, hp, ?_, hlt, ?_⟩
    · rw [hsame a hle hlt]; exact hget
    · exact ownedContents_frame c h h2 m lo a (fun b hb1 hb2 => hsame b hb1 (by omega)) hc
theorem ownedContents_frame : ∀ (C : Contents) (h h2 : Heap) (m : List (String × Pointer))
    (lo hi : Nat),
    (∀ a : Nat, lo ≤ a → a < hi → h2[a]? = h[a]?) →
    OwnedContents h m C lo hi → OwnedContents h2 m C lo hi
  | .empty, _, _, _, _, _, _, ho => by
    simp only [OwnedContents] at ho ⊢
    exact ho
  | .cons n e r, h, h2, m, lo, hi, hsame, ho => by
    simp only [OwnedContents] at ho ⊢
    obtain ⟨p, m2, mid, hm, hp, hr⟩ := ho
    have h1 := owned_le e h p lo mid hp
    have h2le := ownedContents_le r h m2 mid hi hr
    exact ⟨p, m2, mid, hm,
      owned_frame e h h2 p lo mid (fun b hb1 hb2 => hsame b hb1 (by omega)) hp,
      ownedContents_frame r h h2 m2 mid hi (fun b hb1 hb2 => hsame b (by omega) hb2) hr⟩
end

mutual
theorem owned_represents : ∀ (T : Entry) (h : Heap) (p : Pointer) (lo hi : Nat),
    Owned h p T lo hi → represents h p T = true
  | .nil, _, _, _, _, ho => by
    simp only [Owned] at ho
    rw [represents_nil_iff]
    exact ho.1
  | .mk k x d s t c, h, p, lo, hi, ho => by
    simp only [Owned] at ho
    obtain ⟨a, m, hp, hget, _, hc⟩ := ho
    rw [represents_mk_iff]
    exact ⟨a, m, hp, hget, ownedContents_represents c h m lo a hc⟩
theorem ownedContents_represents : ∀ (C : Contents) (h : Heap) (m : List (String × Pointer))
    (lo hi : Nat), OwnedContents h m C lo hi → representsContents h m C = true
  | .empty, _, _, _, _, ho => by
    simp only [OwnedContents] at ho
    rw [representsContents_empty_iff]
    exact ho.1
  | .cons n e r, h, m, lo, hi, ho => by
    simp only [OwnedContents] at ho
    obtain ⟨p, m2, mid, hm, hp, hr⟩ := ho
    rw [representsContents_cons_iff]
    exact ⟨p, m2, hm, owned_represents e h p lo mid hp,
      ownedContents_represents r h m2 mid hi hr⟩
end

theorem Extends.getElem?_eq {h h2 : Heap} (hx : Extends h h2) {a : Nat} (ha : a < h.length) :
    h2[a]? = h[a]? := by
  rw [List.getElem?_eq_getElem ha]
  exact hx a _ (List.getElem?_eq_getElem ha)

theorem copyContents_spec (fuel : Nat)
    (ih : ∀ (T : Entry) (h : Heap) (p : Pointer), T.depth ≤ fuel → represents h p T = true →
      ∃ (h2 : Heap) (r : Pointer),
        Copy fuel h p = some (h2, r) ∧ Extends h h2 ∧ Owned h2 r T h.length h2.length) :
    ∀ (C : Contents) (h : Heap) (m : List (String × Pointer)), C.depth ≤ fuel →
      representsContents h m C = true →
      ∃ (h2 : Heap) (m2 : List (String × Pointer)),
        copyContents (Copy fuel) h m = some (h2, m2) ∧ Extends h h2 ∧
          OwnedContents h2 m2 C h.length h2.length
  | .empty, h, m, _, hr => by
    rw [representsContents_empty_iff] at hr
    subst hr
    exact ⟨h, [], by simp [copyContents], extends_refl h, by simp [OwnedContents]⟩
  | .cons n e r, h, m, hd, hr => by
    rw [representsContents_cons_iff] at hr
    obtain ⟨p, m1, hm, hp, hrest⟩ := hr
    subst hm
    simp only [Contents.depth] at hd
    obtain ⟨h1, q, hcopy, hx1, ho1⟩ := ih e h p (by omega) hp
    obtain ⟨h2, r2, hcopy2, hx2, ho2⟩ := copyContents_spec fuel ih r h1 m1 (by omega)
      (representsContents_extends r h h1 m1 hx1 hrest)
    refine ⟨h2, (n, q) :: r2, by simp [copyContents, hcopy, hcopy2], hx1.step hx2, ?_⟩
    simp only [OwnedContents]
    refine ⟨q, r2, h1.length, rfl, ?_, ho2⟩
    exact owned_frame e h1 h2 q h.length h1.length (fun a _ ha => hx2.getElem?_eq ha) ho1

theorem Entry.depth_le_zero {T : Entry} (h : T.depth ≤ 0) : T = Entry.nil := by
  cases T with
  | nil => rfl
  | mk k x d s t c => simp [Entry.depth] at h

theorem Copy_spec : ∀ (fuel : Nat) (T : Entry) (h : Heap) (p : Pointer),
    T.depth ≤ fuel → represents h p T = true →
    ∃ (h2 : Heap) (r : Pointer),
      Copy fuel h p = some (h2, r) ∧ Extends h h2 ∧ Owned h2 r T h.length h2.length := by
  intro fuel
  induction fuel with
  | zero =>
    intro T h p hd hr
    have hT := Entry.depth_le_zero hd
    subst hT
    rw [represents_nil_iff] at hr
    subst hr
    exact ⟨h, none, by simp [Copy], extends_refl h, by simp [Owned]⟩
  | succ fuel ih =>
    intro T h p hd hr
    cases T with
    | nil =>
      rw [represents_nil_iff] at hr
      subst hr
      exact ⟨h, none, by simp [Copy], extends_refl h, by simp [Owned]⟩
    | mk k x d s t c =>
      rw [represents_mk_iff] at hr
      obtain ⟨a, m, hp, hget, hc⟩ := hr
      subst hp
      simp only [Entry.depth] at hd
      obtain ⟨h1, m2, hcopy, hx1, ho1⟩ := copyContents_spec fuel ih c h m (by omega) hc
      refine ⟨h1 ++ [⟨k, x, d, s, t, m2⟩], some h1.length, by simp [Copy, hget, hcopy],
        hx1.step (extends_append h1 _), ?_⟩
      simp only [Owned]
      refine ⟨h1.length, m2, rfl, by simp, by simp, ?_⟩
      exact ownedContents_frame c h1 _ m2 h.length h1.length
        (fun a _ ha => (extends_append h1 _).getElem?_eq ha) ho1

theorem lt_length_of_getElem? {h : Heap} {a : Nat} {e : Record} (he : h[a]? = some e) :
    a < h.length := by
  by_contra hge
  rw [List.getElem?_eq_none (Nat.le_of_not_lt hge)] at he
  cases he

theorem strip_loop_spec (fuel : Nat)
    (ih : ∀ (T : Entry) (h : Heap) (p : Pointer) (lo hi : Nat), T.depth ≤ fuel →
      Owned h p T lo hi →
      ∃ h2 : Heap, stripExecutability fuel h p = some h2 ∧
        Owned h2 p (Sync.stripExecutability T) lo hi ∧ SameOutside lo hi h h2) :
    ∀ (C : Contents) (h : Heap) (m : List (String × Pointer)) (lo hi : Nat),
      C.depth ≤ fuel → OwnedContents h m C lo hi →
      ∃ h2 : Heap, m.foldlM (fun h entry => stripExecutability fuel h entry.2) h = some h2 ∧
        OwnedContents h2 m (stripContents C) lo hi ∧ SameOutside lo hi h h2
  | .empty, h, m, lo, hi, _, ho => by
    simp only [OwnedContents] at ho
    obtain ⟨hm, hle⟩ := ho
    subst hm
    exact ⟨h, by simp, by simp [stripContents, OwnedContents, hle], sameOutside_refl lo hi h⟩
  | .cons n e r, h, m, lo, hi, hd, ho => by
    simp only [OwnedContents] at ho
    obtain ⟨p, m2, mid, hm, hp, hr⟩ := ho
    subst hm
    simp only [Contents.depth] at hd
    have hle1 := owned_le e h p lo mid hp
    have hle2 := ownedContents_le r h m2 mid hi hr
    obtain ⟨h1, hrun1, ho1, hs1⟩ := ih e h p lo mid (by omega) hp
    have hr1 : OwnedContents h1 m2 r mid hi :=
      ownedContents_frame r h h1 m2 mid hi (fun a ha _ => hs1.2 a (Or.inr ha)) hr
    obtain ⟨h2, hrun2, ho2, hs2⟩ := strip_loop_spec fuel ih r h1 m2 mid hi (by omega) hr1
    refine ⟨h2, by simp [List.foldlM_cons, hrun1, hrun2], ?_,
      (hs1.wider (Nat.le_refl lo) hle2).chain (hs2.wider hle1 (Nat.le_refl hi))⟩
    simp only [stripContents, OwnedContents]
    exact ⟨p, m2, mid, rfl,
      owned_frame _ h1 h2 p lo mid (fun a _ ha => hs2.2 a (Or.inl ha)) ho1, ho2⟩

theorem stripExecutability_spec : ∀ (fuel : Nat) (T : Entry) (h : Heap) (p : Pointer)
    (lo hi : Nat), T.depth ≤ fuel → Owned h p T lo hi →
    ∃ h2 : Heap, stripExecutability fuel h p = some h2 ∧
      Owned h2 p (Sync.stripExecutability T) lo hi ∧ SameOutside lo hi h h2 := by
  intro fuel
  induction fuel with
  | zero =>
    intro T h p lo hi hd ho
    have hT := Entry.depth_le_zero hd
    subst hT
    simp only [Owned] at ho
    obtain ⟨hp, hle⟩ := ho
    subst hp
    exact ⟨h, by simp [stripExecutability], by simp [Sync.stripExecutability, Owned, hle],
      sameOutside_refl lo hi h⟩
  | succ fuel ih =>
    intro T h p lo hi hd ho
    cases T with
    | nil =>
      simp only [Owned] at ho
      obtain ⟨hp, hle⟩ := ho
      subst hp
      exact ⟨h, by simp [stripExecutability], by simp [Sync.stripExecutability, Owned, hle],
        sameOutside_refl lo hi h⟩
    | mk k x d s t c =>
      have ho0 := ho
      simp only [Owned] at ho
      obtain ⟨a, m, hp, hget, hlt, hc⟩ := ho
      subst hp
      simp only [Entry.depth] at hd
      have hle := ownedContents_le c h m lo a hc
      by_cases hk : k = EntryKind.Directory
      · subst hk
        obtain ⟨h2, hrun, ho2, hs2⟩ := strip_loop_spec fuel ih c h m lo a (by omega) hc
        refine ⟨h2, by simp [stripExecutability, hget, hrun], ?_,
          hs2.wider (Nat.le_refl lo) (Nat.le_of_lt hlt)⟩
        simp only [Sync.stripExecutability, if_true, Owned]
        exact ⟨a, m, rfl, by rw [hs2.2 a (Or.inr (Nat.le_refl a))]; exact hget, hlt, ho2⟩
      · by_cases hf : k = EntryKind.File
        · subst hf
          refine ⟨h.set a ⟨EntryKind.File, false, d, s, t, m⟩,
            by simp [stripExecutability, hget], ?_, sameOutside_set h a _ lo hi hle hlt⟩
          simp only [Sync.stripExecutability, Owned]
          refine ⟨a, m, rfl, ?_, hlt, ?_⟩
          · simp [List.getElem?_set_self (lt_length_of_getElem? hget)]
          · exact ownedContents_frame c h _ m lo a
              (fun b _ hb => (sameOutside_set h a _ a (a + 1) (Nat.le_refl a)
                (Nat.lt_succ_self a)).2 b (Or.inl hb)) hc
        · exact ⟨h, by simp [stripExecutability, hget, hk, hf],
            by simpa [Sync.stripExecutability, hk, hf] using ho0, sameOutside_refl lo hi h⟩

theorem index_represents (h : Heap) (n : String) : ∀ (C : Contents)
    (m : List (String × Pointer)), representsContents h m C = true →
    represents h (index m n) (C.get n) = true
  | .empty, m, hr => by
    rw [representsContents_empty_iff] at hr
    subst hr
    simp [index, Contents.get, represents]
  | .cons n2 e r, m, hr => by
    rw [representsContents_cons_iff] at hr
    obtain ⟨p, m2, hm, hp, hrest⟩ := hr
    subst hm
    by_cases hn : n2 = n
    · simp [index, Contents.get, hn, hp]
    · simp [index, Contents.get, hn, index_represents h n r m2 hrest]

theorem names_of_representsContents (h : Heap) : ∀ (C : Contents)
    (m : List (String × Pointer)), representsContents h m C = true →
    m.map Prod.fst = C.names
  | .empty, m, hr => by
    rw [representsContents_empty_iff] at hr
    subst hr
    simp [Contents.names]
  | .cons n2 e r, m, hr => by
    rw [representsContents_cons_iff] at hr
    obtain ⟨p, m2, hm, _, hrest⟩ := hr
    subst hm
    simp [Contents.names, names_of_representsContents h r m2 hrest]

theorem propagateExecutability_nil_target (fuel : Nat) (h : Heap) (s : Pointer) :
    propagateExecutability fuel h s none = some h := by
  cases s <;> cases fuel <;> simp [propagateExecutability]

theorem propagateContents_no_names (a : Contents) : ∀ c : Contents,
    propagateContents a [] c = c
  | .empty => by simp [propagateContents]
  | .cons n e r => by simp [propagateContents, propagateContents_no_names a r]

theorem propagateContents_append_not_mem (a : Contents) (done : List String) (n : String) :
    ∀ c : Contents, n ∉ c.names →
      propagateContents a (done ++ [n]) c = propagateContents a done c
  | .empty, _ => by simp [propagateContents]
  | .cons m e r, hn => by
    simp only [Contents.names, List.mem_cons, not_or] at hn
    have hne : ¬ m = n := fun hmn => hn.1 hmn.symm
    simp [propagateContents, hne, propagateContents_append_not_mem a done n r hn.2]

theorem propagate_step_spec (fuel : Nat)
    (ih : ∀ (S T : Entry) (h0 h : Heap) (s t : Pointer) (lo hi : Nat), T.depth ≤ fuel →
      T.KeysUnique → represents h0 s S = true → Extends h0 h → h0.length ≤ lo →
      Owned h t T lo hi →
      ∃ h2 : Heap, propagateExecutability fuel h s t = some h2 ∧
        Owned h2 t (Sync.propagateExecutability S T) lo hi ∧ SameOutside lo hi h h2)
    (h0 : Heap) (sm : List (String × Pointer)) (Sc : Contents)
    (hsrc : representsContents h0 sm Sc = true) (done : List String) (n : String)
    (hn : n ∉ done) :
    ∀ (Tc : Contents) (h : Heap) (tm : List (String × Pointer)) (lo hi : Nat),
      Tc.depth ≤ fuel → Tc.KeysUnique → Extends h0 h → h0.length ≤ lo →
      OwnedContents h tm (propagateContents Sc done Tc) lo hi →
      ∃ h2 : Heap, propagateExecutability fuel h (index sm n) (index tm n) = some h2 ∧
        OwnedContents h2 tm (propagateContents Sc (done ++ [n]) Tc) lo hi ∧
        SameOutside lo hi h h2
  | .empty, h, tm, lo, hi, _, _, _, _, ho => by
    simp only [propagateContents, OwnedContents] at ho
    obtain ⟨hm, hle⟩ := ho
    subst hm
    exact ⟨h, by simp [index, propagateExecutability_nil_target],
      by simp [propagateContents, OwnedContents, hle], sameOutside_refl lo hi h⟩
  | .cons m e r, h, tm, lo, hi, hd, hu, hx, hlo, ho => by
    simp only [propagateContents, OwnedContents] at ho
    obtain ⟨p, tm2, mid, htm, hp, hr⟩ := ho
    subst htm
    simp only [Contents.depth] at hd
    simp only [Contents.KeysUnique] at hu
    obtain ⟨hm, hue, hur⟩ := hu
    have hle1 := owned_le _ h p lo mid hp
    have hle2 := ownedContents_le _ h tm2 mid hi hr
    by_cases hmn : m = n
    · subst hmn
      simp only [hn, if_false] at hp
      obtain ⟨h2, hrun, ho2, hs2⟩ := ih (Sc.get m) e h0 h (index sm m) p lo mid (by omega) hue
        (index_represents h0 m Sc sm hsrc) hx hlo hp
      refine ⟨h2, by simpa [index] using hrun, ?_, hs2.wider (Nat.le_refl lo) hle2⟩
      simp only [propagateContents, OwnedContents, List.mem_append, List.mem_singleton,
        or_true, if_true]
      refine ⟨p, tm2, mid, rfl, ho2, ?_⟩
      rw [propagateContents_append_not_mem Sc done m r hm]
      exact ownedContents_frame _ h h2 tm2 mid hi (fun a ha _ => hs2.2 a (Or.inr ha)) hr
    · obtain ⟨h2, hrun, ho2, hs2⟩ := propagate_step_spec fuel ih h0 sm Sc hsrc done n hn r h
        tm2 mid hi (by omega) hur hx (by omega) hr
      refine ⟨h2, by simpa [index, hmn] using hrun, ?_, hs2.wider hle1 (Nat.le_refl hi)⟩
      simp only [propagateContents, OwnedContents, List.mem_append, List.mem_singleton, hmn,
        or_false]
      exact ⟨p, tm2, mid, rfl,
        owned_frame _ h h2 p lo mid (fun a _ ha => hs2.2 a (Or.inl ha)) hp, ho2⟩

theorem propagate_loop_spec (fuel : Nat)
    (ih : ∀ (S T : Entry) (h0 h : Heap) (s t : Pointer) (lo hi : Nat), T.depth ≤ fuel →
      T.KeysUnique → represents h0 s S = true → Extends h0 h → h0.length ≤ lo →
      Owned h t T lo hi →
      ∃ h2 : Heap, propagateExecutability fuel h s t = some h2 ∧
        Owned h2 t (Sync.propagateExecutability S T) lo hi ∧ SameOutside lo hi h h2)
    (h0 : Heap) (sm : List (String × Pointer)) (Sc : Contents)
    (hsrc : representsContents h0 sm Sc = true) (Tc : Contents)
    (tm : List (String × Pointer)) (lo hi : Nat) (hd : Tc.depth ≤ fuel)
    (hu : Tc.KeysUnique) (hlo : h0.length ≤ lo) :
    ∀ (names done : List String) (h : Heap), names.Nodup → (∀ n ∈ names, n ∉ done) →
      Extends h0 h → OwnedContents h tm (propagateContents Sc done Tc) lo hi →
      ∃ h2 : Heap,
        names.foldlM (fun h name =>
          propagateExecutability fuel h (index sm name) (index tm name)) h = some h2 ∧
        OwnedContents h2 tm (propagateContents Sc (done ++ names) Tc) lo hi ∧
        SameOutside lo hi h h2 := by
  intro names
  induction names with
  | nil =>
    intro done h _ _ _ ho
    exact ⟨h, by simp, by simpa using ho, sameOutside_refl lo hi h⟩
  | cons n names ihn =>
    intro done h hnd hnot hx ho
    rw [List.nodup_cons] at hnd
    obtain ⟨h1, hrun1, ho1, hs1⟩ := propagate_step_spec fuel ih h0 sm Sc hsrc done n
      (hnot n (by simp)) Tc h tm lo hi hd hu hx hlo ho
    have hx1 : Extends h0 h1 := hs1.extends_of_le hx hlo
    obtain ⟨h2, hrun2, ho2, hs2⟩ := ihn (done ++ [n]) h1 hnd.2
      (fun k hk hmem => by
        rw [List.mem_append, List.mem_singleton] at hmem
        rcases hmem with hmem | hmem
        · exact hnot k (by simp [hk]) hmem
        · exact hnd.1 (hmem ▸ hk))
      hx1 ho1
    refine ⟨h2, by simp [List.foldlM_cons, hrun1, hrun2], ?_, hs1.chain hs2⟩
    simpa [List.append_assoc] using ho2

theorem nameUnion_represents (h0 h : Heap) (sm tm : List (String × Pointer))
    (Sc Tc : Contents) (hs : representsContents h0 sm Sc = true)
    (ht : representsContents h tm Tc = true) :
    nameUnion sm tm = Sync.nameUnion Sc Tc := by
  simp [nameUnion, Sync.nameUnion, names_of_representsContents h0 Sc sm hs,
    names_of_representsContents h Tc tm ht]

theorem propagateExecutability_spec : ∀ (fuel : Nat) (S T : Entry) (h0 h : Heap)
    (s t : Pointer) (lo hi : Nat), T.depth ≤ fuel → T.KeysUnique →
    represents h0 s S = true → Extends h0 h → h0.length ≤ lo → Owned h t T lo hi →
    ∃ h2 : Heap, propagateExecutability fuel h s t = some h2 ∧
      Owned h2 t (Sync.propagateExecutability S T) lo hi ∧ SameOutside lo hi h h2 := by
  intro fuel
  induction fuel with
  | zero =>
    intro S T h0 h s t lo hi hd _ _ _ _ ho
    have hT := Entry.depth_le_zero hd
    subst hT
    simp only [Owned] at ho
    obtain ⟨hp, hle⟩ := ho
    subst hp
    exact ⟨h, propagateExecutability_nil_target 0 h s,
      by simp [Sync.propagateExecutability, Owned, hle], sameOutside_refl lo hi h⟩
  | succ fuel ih =>
    intro S T h0 h s t lo hi hd hu hs hx hlo ho
    cases T with
    | nil =>
      simp only [Owned] at ho
      obtain ⟨hp, hle⟩ := ho
      subst hp
      exact ⟨h, propagateExecutability_nil_target _ h s,
        by simp [Sync.propagateExecutability, Owned, hle], sameOutside_refl lo hi h⟩
    | mk k x d sz tg c =>
      cases S with
      | nil =>
        rw [represents_nil_iff] at hs
        subst hs
        exact ⟨h, by simp [propagateExecutability],
          by simpa [Sync.propagateExecutability] using ho, sameOutside_refl lo hi h⟩
      | mk k2 x2 d2 sz2 tg2 c2 =>
        have ho0 := ho
        simp only [Owned] at ho
        obtain ⟨a, m, hp, hget, hlt, hc⟩ := ho
        subst hp
        rw [represents_mk_iff] at hs
        obtain ⟨b, sm, hsp, hsget0, hsc⟩ := hs
        subst hsp
        have hsget := hx b _ hsget0
        simp only [Entry.depth] at hd
        simp only [Entry.KeysUnique] at hu
        have hle := ownedContents_le c h m lo a hc
        by_cases hk : k2 = k
        · subst hk
          by_cases hdir : k2 = EntryKind.Directory
          · subst hdir
            have hnames := nameUnion_represents h0 h sm m c2 c hsc
              (ownedContents_represents c h m lo a hc)
            obtain ⟨h2, hrun, ho2, hs2⟩ := propagate_loop_spec fuel ih h0 sm c2 hsc c m lo a
              (by omega) hu hlo (Sync.nameUnion c2 c) [] h (List.nodup_dedup _)
              (fun _ _ hmem => by simp at hmem) hx
              (by rw [propagateContents_no_names]; exact hc)
            refine ⟨h2, by simp [propagateExecutability, hget, hsget, hnames, hrun], ?_,
              hs2.wider (Nat.le_refl lo) (Nat.le_of_lt hlt)⟩
            simp only [Sync.propagateExecutability, ne_eq, not_true_eq_false, if_false,
              if_true, Owned]
            refine ⟨a, m, rfl, ?_, hlt, by simpa using ho2⟩
            rw [hs2.2 a (Or.inr (Nat.le_refl a))]
            exact hget
          · by_cases hf : k2 = EntryKind.File
            · subst hf
              refine ⟨h.set a ⟨EntryKind.File, x2, d, sz, tg, m⟩,
                by simp [propagateExecutability, hget, hsget], ?_,
                sameOutside_set h a _ lo hi hle hlt⟩
              simp only [Sync.propagateExecutability, Owned]
              refine ⟨a, m, rfl, ?_, hlt, ?_⟩
              · simp [List.getElem?_set_self (lt_length_of_getElem? hget)]
              · exact ownedContents_frame c h _ m lo a
                  (fun e _ he => (sameOutside_set h a _ a (a + 1) (Nat.le_refl a)
                    (Nat.lt_succ_self a)).2 e (Or.inl he)) hc
            · exact ⟨h, by simp [propagateExecutability, hget, hsget, hdir, hf],
                by simpa [Sync.propagateExecutability, hdir, hf] using ho0,
                sameOutside_refl lo hi h⟩
        · exact ⟨h, by simp [propagateExecutability, hget, hsget, hk],
            by simpa [Sync.propagateExecutability, hk] using ho0, sameOutside_refl lo hi h⟩

theorem PropagateExecutability_spec (fuel : Nat) (S T : Entry) (h : Heap) (s t : Pointer)
    (hd : T.depth ≤ fuel) (hu : T.KeysUnique) (hs : represents h s S = true)
    (ht : represents h t T = true) :
    ∃ (h2 : Heap) (r : Pointer), PropagateExecutability fuel h s t = some (h2, r) ∧
      Extends h h2 ∧ Owned h2 r (Sync.PropagateExecutability S T) h.length h2.length := by
  obtain ⟨h1, r, hcopy, hx1, ho1⟩ := Copy_spec fuel T h t hd ht
  obtain ⟨h2, hrun, ho2, hs2⟩ := propagateExecutability_spec fuel S T h h1 s r h.length
    h1.length hd hu hs hx1 (Nat.le_refl _) ho1
  refine ⟨h2, r, by simp [PropagateExecutability, hcopy, hrun],
    hs2.extends_of_le hx1 (Nat.le_refl _), ?_⟩
  rw [hs2.1]
  simpa [Sync.PropagateExecutability, Entry.Copy_eq] using ho2

theorem StripExecutability_spec (fuel : Nat) (T : Entry) (h : Heap) (t : Pointer)
    (hd : T.depth ≤ fuel) (ht : represents h t T = true) :
    ∃ (h2 : Heap) (r : Pointer), StripExecutability fuel h t = some (h2, r) ∧
      Extends h h2 ∧ Owned h2 r (Sync.StripExecutability T) h.length h2.length := by
  obtain ⟨h1, r, hcopy, hx1, ho1⟩ := Copy_spec fuel T h t hd ht
  obtain ⟨h2, hrun, ho2, hs2⟩ := stripExecutability_spec fuel T h1 r h.length h1.length hd ho1
  refine ⟨h2, r, by simp [StripExecutability, hcopy, hrun],
    hs2.extends_of_le hx1 (Nat.le_refl _), ?_⟩
  rw [hs2.1]
  simpa [Sync.StripExecutability, Entry.Copy_eq] using ho2

theorem sampleHeap_propagate :
    PropagateExecutability 2 sampleHeap (some 1) (some 4)
      = some (sampleHeap ++
          [⟨.File, true, [9], 2, "", []⟩,
           ⟨.File, true, [3], 4, "", []⟩,
           ⟨.Directory, false, [], 0, "", [("a", some 5), ("b", some 6)]⟩], some 7) := by
  decide

theorem sampleHeap_strip :
    StripExecutability 2 sampleHeap (some 4)
      = some (sampleHeap ++
          [⟨.File, false, [9], 2, "", []⟩,
           ⟨.File, false, [3], 4, "", []⟩,
           ⟨.Directory, false, [], 0, "", [("a", some 5), ("b", some 6)]⟩], some 7) := by
  decide

theorem sampleHeap_out_of_fuel :
    PropagateExecutability 1 sampleHeap (some 1) (some 4) = none := by
  decide

end Mem

/-! ## Claims -/

/-- C9: propagation changes nothing but executable flags of File entries: for
every source and target tree, nil trees and trees of disagreeing shape
included, stripping the propagated tree gives the stripped target. -/
theorem strip_propagate_eq_strip (S T : Entry) :
    StripExecutability (PropagateExecutability S T) = StripExecutability T := by
  simp [StripExecutability, PropagateExecutability, Entry.Copy_eq, strip_propagate_aux]

/-- C1: for every tree T, the nil tree included, stripping the tree obtained
by propagating T into its own stripped form gives the stripped form of T. -/
theorem strip_propagate_strip (T : Entry) :
    StripExecutability (PropagateExecutability T (StripExecutability T))
      = StripExecutability T := by
  simp [StripExecutability, PropagateExecutability, Entry.Copy_eq, strip_propagate_aux,
    strip_strip_aux]

/-- C2: when in both trees every proper prefix of p leads to a Directory and p
itself leads to a File, the entry at p of the propagated tree is a File with
the executable flag of the source entry at p and every other field of the
target entry at p. -/
theorem propagate_file_at_path (S T : Entry) (p : List String)
    (hS : S.DirectoriesAbove p) (hT : T.DirectoriesAbove p)
    (hSf : (S.atPath p).kind? = some EntryKind.File)
    (hTf : (T.atPath p).kind? = some EntryKind.File) :
    ((PropagateExecutability S T).atPath p).kind? = some EntryKind.File
    ∧ ((PropagateExecutability S T).atPath p).executable? = (S.atPath p).executable?
    ∧ ((PropagateExecutability S T).atPath p).digest? = (T.atPath p).digest?
    ∧ ((PropagateExecutability S T).atPath p).size? = (T.atPath p).size?
    ∧ ((PropagateExecutability S T).atPath p).target? = (T.atPath p).target?
    ∧ ((PropagateExecutability S T).atPath p).GetContents = (T.atPath p).GetContents := by
  have h := atPath_propagate S T p ((Entry.dirsAbove_iff S p).2 hS)
    ((Entry.dirsAbove_iff T p).2 hT)
  simp only [PropagateExecutability, Entry.Copy_eq, h]
  cases hs : S.atPath p with
  | nil => simp [hs, Entry.kind?] at hSf
  | mk k' x' d' sz' tg' c' =>
    cases ht : T.atPath p with
    | nil => simp [ht, Entry.kind?] at hTf
    | mk k x d sz tg c =>
      simp only [hs, ht, Entry.kind?, Option.some.injEq] at hSf hTf
      subst hSf hTf
      simp [propagateExecutability, Entry.kind?, Entry.executable?, Entry.digest?,
        Entry.size?, Entry.target?, Entry.GetContents]

theorem propagate_file_at_path_witness :
    ((PropagateExecutability sampleSource sampleTarget).atPath ["a"]).kind?
        = some EntryKind.File
    ∧ ((PropagateExecutability sampleSource sampleTarget).atPath ["a"]).executable?
        = (sampleSource.atPath ["a"]).executable?
    ∧ ((PropagateExecutability sampleSource sampleTarget).atPath ["a"]).digest?
        = (sampleTarget.atPath ["a"]).digest?
    ∧ ((PropagateExecutability sampleSource sampleTarget).atPath ["a"]).size?
        = (sampleTarget.atPath ["a"]).size?
    ∧ ((PropagateExecutability sampleSource sampleTarget).atPath ["a"]).target?
        = (sampleTarget.atPath ["a"]).target?
    ∧ ((PropagateExecutability sampleSource sampleTarget).atPath ["a"]).GetContents
        = (sampleTarget.atPath ["a"]).GetContents :=
  propagate_file_at_path sampleSource sampleTarget ["a"]
    ((Entry.dirsAbove_iff _ _).1 (by decide)) ((Entry.dirsAbove_iff _ _).1 (by decide))
    (by decide) (by decide)

/-- C3: at a path p below directories of both trees where the target has an
entry and the source has none or one of another kind, the propagated tree
holds the target subtree unchanged; with a nil source or root kinds that
differ the result is the target, and with a nil target the result is nil. -/
theorem propagate_untouched (S T : Entry) :
    (∀ p : List String, S.DirectoriesAbove p → T.DirectoriesAbove p →
      T.atPath p ≠ Entry.nil →
      (S.atPath p = Entry.nil ∨ (S.atPath p).kind? ≠ (T.atPath p).kind?) →
      (PropagateExecutability S T).atPath p = T.atPath p)
    ∧ PropagateExecutability Entry.nil T = T
    ∧ (S.kind? ≠ T.kind? → PropagateExecutability S T = T)
    ∧ PropagateExecutability S Entry.nil = Entry.nil := by
  have hdiff : ∀ s t : Entry, s.kind? ≠ t.kind? → propagateExecutability s t = t := by
    intro s t hk
    cases t with
    | nil => simp [propagateExecutability]
    | mk k x d sz tg c =>
      cases s with
      | nil => simp [propagateExecutability]
      | mk k' x' d' sz' tg' c' =>
        have hne : ¬ k' = k := fun h => hk (by simp [Entry.kind?, h])
        simp [propagateExecutability, hne]
  refine ⟨?_, ?_, ?_, ?_⟩
  · intro p hS hT _ hsrc
    have h := atPath_propagate S T p ((Entry.dirsAbove_iff S p).2 hS)
      ((Entry.dirsAbove_iff T p).2 hT)
    simp only [PropagateExecutability, Entry.Copy_eq, h]
    rcases hsrc with hnil | hk
    · rw [hnil, propagate_nil_source]
    · exact hdiff _ _ hk
  · simp [PropagateExecutability, Entry.Copy_eq, propagate_nil_source]
  · intro hk
    simpa [PropagateExecutability, Entry.Copy_eq] using hdiff S T hk
  · simp [PropagateExecutability, Entry.Copy, propagateExecutability]

theorem propagate_untouched_witness :
    (PropagateExecutability sampleSource sampleTarget).atPath ["b"]
      = sampleTarget.atPath ["b"] :=
  (propagate_untouched sampleSource sampleTarget).1 ["b"]
    ((Entry.dirsAbove_iff _ _).1 (by decide)) ((Entry.dirsAbove_iff _ _).1 (by decide))
    (by decide) (Or.inl (by decide))

/-- C4: the stripped tree has the shape of T: at every path the same kind,
digest, size, symlink target and child names (and nil exactly where T is nil);
every File below directories of the stripped tree has the executable flag
false; every other entry keeps its flag; stripping nil gives nil. -/
theorem strip_shape (T : Entry) :
    (∀ p : List String,
      ((StripExecutability T).atPath p).kind? = (T.atPath p).kind?
      ∧ ((StripExecutability T).atPath p).digest? = (T.atPath p).digest?
      ∧ ((StripExecutability T).atPath p).size? = (T.atPath p).size?
      ∧ ((StripExecutability T).atPath p).target? = (T.atPath p).target?
      ∧ ((StripExecutability T).atPath p).GetContents.names = (T.atPath p).GetContents.names
      ∧ ((StripExecutability T).DirectoriesAbove p →
          ((StripExecutability T).atPath p).kind? = some EntryKind.File →
          ((StripExecutability T).atPath p).executable? = some false)
      ∧ (¬ (T.DirectoriesAbove p ∧ (T.atPath p).kind? = some EntryKind.File) →
          ((StripExecutability T).atPath p).executable? = (T.atPath p).executable?))
    ∧ StripExecutability Entry.nil = Entry.nil := by
  have hkind : ∀ p : List String,
      ((stripExecutability T).atPath p).kind? = (T.atPath p).kind? := by
    intro p
    rw [atPath_strip]
    split
    · exact kind_strip _
    · rfl
  have hdirs : ∀ p : List String,
      (stripExecutability T).DirectoriesAbove p → T.DirectoriesAbove p := by
    intro p h q hq hne
    rw [← hkind q]
    exact h q hq hne
  refine ⟨?_, by simp [StripExecutability, Entry.Copy, stripExecutability]⟩
  intro p
  simp only [StripExecutability, Entry.Copy_eq]
  refine ⟨hkind p, ?_, ?_, ?_, ?_, ?_, ?_⟩
  · rw [atPath_strip]; split
    · exact digest_strip _
    · rfl
  · rw [atPath_strip]; split
    · exact size_strip _
    · rfl
  · rw [atPath_strip]; split
    · exact target_strip _
    · rfl
  · rw [atPath_strip]; split
    · exact names_strip _
    · rfl
  · intro hd hf
    have hd2 := (Entry.dirsAbove_iff T p).2 (hdirs p hd)
    rw [hkind p] at hf
    rw [atPath_strip, if_pos hd2, executable_strip, if_pos hf]
  · intro hnot
    rw [atPath_strip]
    split
    · rename_i hd2
      have hd := (Entry.dirsAbove_iff T p).1 hd2
      have hnf : ¬ (T.atPath p).kind? = some EntryKind.File := fun hf => hnot ⟨hd, hf⟩
      rw [executable_strip, if_neg hnf]
    · rfl

theorem strip_shape_witness :
    ((StripExecutability sampleTarget).atPath ["b"]).executable? = some false :=
  ((strip_shape sampleTarget).1 ["b"]).2.2.2.2.2.1
    ((Entry.dirsAbove_iff _ _).1 (by decide)) (by decide)

/-- C5: propagation restores what a scan without executability lost: for every
tree T (each of its maps holding every name once, as Go maps do), propagating T
into the stripped form of T gives T back. -/
theorem propagate_restores (T : Entry) (hT : T.KeysUnique) :
    PropagateExecutability T (StripExecutability T) = T := by
  simp [PropagateExecutability, StripExecutability, Entry.Copy_eq, propagate_strip_aux T hT]

theorem propagate_restores_witness :
    PropagateExecutability sampleTarget (StripExecutability sampleTarget) = sampleTarget :=
  propagate_restores sampleTarget (by simp [sampleTarget, Entry.KeysUnique, Contents.KeysUnique, Contents.names])

/-- C6: neither function writes to a record that existed before the call.
When `source` and `target` lead to the trees S and T in the heap and the
bound on nested calls is at least the depth of T, `StripExecutability` of
`target` returns, every record of the old heap is unchanged, `target` still
leads to T, and the result leads to the stripped tree, made of records
allocated by the call.  When moreover the maps of T hold every name once, as
Go maps do, the same holds for `PropagateExecutability`: it returns, the old
heap is unchanged, `source` and `target` still lead to S and T, and the
result leads to the propagated tree, made of fresh records. -/
theorem arguments_not_mutated (fuel : Nat) (h : Mem.Heap) (source target : Mem.Pointer)
    (S T : Entry) (hs : Mem.represents h source S = true)
    (ht : Mem.represents h target T = true) (hd : T.depth ≤ fuel) :
    (T.KeysUnique →
      ∃ (h2 : Mem.Heap) (result : Mem.Pointer),
        Mem.PropagateExecutability fuel h source target = some (h2, result)
        ∧ (∀ a : Nat, a < h.length → h2[a]? = h[a]?)
        ∧ Mem.represents h2 source S = true
        ∧ Mem.represents h2 target T = true
        ∧ Mem.represents h2 result (PropagateExecutability S T) = true
        ∧ Mem.Owned h2 result (PropagateExecutability S T) h.length h2.length)
    ∧ (∃ (h3 : Mem.Heap) (result : Mem.Pointer),
        Mem.StripExecutability fuel h target = some (h3, result)
        ∧ (∀ a : Nat, a < h.length → h3[a]? = h[a]?)
        ∧ Mem.represents h3 target T = true
        ∧ Mem.represents h3 result (StripExecutability T) = true
        ∧ Mem.Owned h3 result (StripExecutability T) h.length h3.length) := by
  constructor
  · intro hu
    obtain ⟨h2, r, hrun, hx, ho⟩ := Mem.PropagateExecutability_spec fuel S T h source target
      hd hu hs ht
    exact ⟨h2, r, hrun, fun a ha => hx.getElem?_eq ha,
      Mem.represents_extends S h h2 source hx hs, Mem.represents_extends T h h2 target hx ht,
      Mem.owned_represents _ h2 r _ _ ho, ho⟩
  · obtain ⟨h3, r, hrun, hx, ho⟩ := Mem.StripExecutability_spec fuel T h target hd ht
    exact ⟨h3, r, hrun, fun a ha => hx.getElem?_eq ha,
      Mem.represents_extends T h h3 target hx ht, Mem.owned_represents _ h3 r _ _ ho, ho⟩

theorem arguments_not_mutated_witness :
    ∃ (h2 : Mem.Heap) (result : Mem.Pointer),
      Mem.PropagateExecutability 2 Mem.sampleHeap (some 1) (some 4) = some (h2, result)
      ∧ (∀ a : Nat, a < Mem.sampleHeap.length → h2[a]? = Mem.sampleHeap[a]?)
      ∧ Mem.represents h2 (some 1) sampleSource = true
      ∧ Mem.represents h2 (some 4) sampleTarget = true
      ∧ Mem.represents h2 result (PropagateExecutability sampleSource sampleTarget) = true
      ∧ Mem.Owned h2 result (PropagateExecutability sampleSource sampleTarget)
          Mem.sampleHeap.length h2.length :=
  (arguments_not_mutated 2 Mem.sampleHeap (some 1) (some 4) sampleSource sampleTarget
    (by decide) (by decide) (by decide)).1
    (by simp [sampleTarget, Entry.KeysUnique, Contents.KeysUnique, Contents.names])

end Sync

namespace Base64

theorem encode_rfc4648_vectors :
    encode [] = "".toList ∧ encode [102] = "Zg==".toList ∧ encode [102, 111] = "Zm8=".toList
    ∧ encode [102, 111, 111] = "Zm9v".toList
    ∧ encode [102, 111, 111, 98] = "Zm9vYg==".toList
    ∧ encode [102, 111, 111, 98, 97, 114] = "Zm9vYmFy".toList := by decide

theorem value_digit : ∀ n : Nat, n < 64 → value (digit n) = some n := by decide

theorem digit_ne_pad : ∀ n : Nat, n < 64 → digit n ≠ '=' := by decide

theorem decode_encode : ∀ src : List Nat, (∀ b ∈ src, b < 256) →
    decode (encode src) = some src
  | [], _ => by simp [encode, decode]
  | [a], h => by
    have ha : a < 256 := h a (by simp)
    simp only [encode, decode]
    rw [value_digit _ (by omega), value_digit _ (by omega)]
    simp
    omega
  | [a, b], h => by
    have ha : a < 256 := h a (by simp)
    have hb : b < 256 := h b (by simp)
    simp only [encode, decode]
    rw [value_digit _ (by omega), value_digit _ (by omega), value_digit _ (by omega)]
    have hne := digit_ne_pad (b % 16 * 4) (by omega)
    simp [hne]
    omega
  | [a, b, c], h => by
    have ha : a < 256 := h a (by simp)
    have hb : b < 256 := h b (by simp)
    have hc : c < 256 := h c (by simp)
    simp only [encode, decode]
    rw [value_digit _ (by omega), value_digit _ (by omega), value_digit _ (by omega),
      value_digit _ (by omega)]
    have hne2 := digit_ne_pad (b % 16 * 4 + c / 64) (by omega)
    have hne3 := digit_ne_pad (c % 64) (by omega)
    simp [hne2, hne3]
    omega
  | a :: b :: c :: d :: rest, h => by
    have ha : a < 256 := h a (by simp)
    have hb : b < 256 := h b (by simp)
    have hc : c < 256 := h c (by simp)
    have ih := decode_encode (d :: rest) (fun x hx => h x (by simp [hx]))
    obtain ⟨y, ys, hy⟩ : ∃ y ys, encode (d :: rest) = y :: ys := by
      cases rest with
      | nil => exact ⟨_, _, rfl⟩
      | cons e rest =>
        cases rest with
        | nil => exact ⟨_, _, rfl⟩
        | cons f rest => exact ⟨_, _, rfl⟩
    rw [encode, hy]
    simp only [decode]
    rw [← hy, ih, value_digit _ (by omega), value_digit _ (by omega),
      value_digit _ (by omega), value_digit _ (by omega)]
    simp
    omega

theorem DecodeString_EncodeToString (src : List Nat) (h : ∀ b ∈ src, b < 256) :
    DecodeString (EncodeToString src) = some src := by
  simp [DecodeString, EncodeToString, decode_encode src h]

end Base64

namespace Ssh

theorem bytes_lt (s : String) : ∀ b ∈ bytes s, b < 256 := by
  intro b hb
  simp only [bytes, List.mem_map] at hb
  obtain ⟨u, _, hu⟩ := hb
  rw [← hu]
  exact UInt8.toNat_lt_size u

theorem lookup_foldl_insert (name : String) :
    ∀ (l : List (Sigma (fun _ : String => String))) (acc : Variables), l.NodupKeys →
      (l.foldl (fun r kv => r.insert kv.1 kv.2) acc).lookup name
        = (l.dlookup name).orElse (fun _ => acc.lookup name) := by
  intro l
  induction l with
  | nil => intro acc _; simp
  | cons kv l ih =>
    intro acc hnd
    obtain ⟨k, v⟩ := kv
    rw [List.nodupKeys_cons] at hnd
    rw [List.foldl_cons, ih _ hnd.2]
    by_cases hk : name = k
    · subst hk
      have hnone : l.dlookup name = none := List.dlookup_eq_none.2 hnd.1
      simp [hnone, AList.lookup_insert]
    · have hk2 : name ≠ (⟨k, v⟩ : Sigma (fun _ : String => String)).1 := hk
      rw [List.dlookup_cons_ne l _ hk2, AList.lookup_insert_ne hk]

theorem lookup_copy (Current : Variables) (name : String) :
    (Current.entries.foldl (fun r kv => r.insert kv.1 kv.2) (∅ : Variables)).lookup name
      = Current.lookup name := by
  rw [lookup_foldl_insert name Current.entries ∅ Current.nodupKeys]
  simp [AList.lookup]

/-- C7: with the empty prompter the result is nil, whatever the context, the
current environment and the executable path are. -/
theorem prompterEnvironment_empty_prompter (Format : Variables → List String)
    (Current : Variables) (ExecutablePath context : String) :
    prompterEnvironment Format Current ExecutablePath "" context = none := by
  simp [prompterEnvironment]

/-- C8: for a prompter that is not empty, the map handed to `Format` binds
SSH_ASKPASS to the executable path, DISPLAY to mutagen, MUTAGEN_PROMPTER to the
prompter and MUTAGEN_PROMPTER_CONTEXT_BASE64 to the standard base64 encoding of
the bytes of the context, which decodes to these bytes; every other name is
bound exactly as in the current environment. -/
theorem prompterEnvironment_variables (Current : Variables)
    (ExecutablePath prompter context : String) (hp : prompter ≠ "") :
    ∃ result : Variables,
      (∀ Format : Variables → List String,
        prompterEnvironment Format Current ExecutablePath prompter context
          = some (Format result))
      ∧ result.lookup "SSH_ASKPASS" = some ExecutablePath
      ∧ result.lookup "DISPLAY" = some "mutagen"
      ∧ result.lookup PrompterEnvironmentVariable = some prompter
      ∧ result.lookup PrompterContextBase64EnvironmentVariable
          = some (Base64.EncodeToString (bytes context))
      ∧ Base64.DecodeString (Base64.EncodeToString (bytes context)) = some (bytes context)
      ∧ ∀ name : String, name ≠ "SSH_ASKPASS" → name ≠ "DISPLAY" →
          name ≠ PrompterEnvironmentVariable →
          name ≠ PrompterContextBase64EnvironmentVariable →
          result.lookup name = Current.lookup name := by
  refine ⟨((((Current.entries.foldl (fun r kv => r.insert kv.1 kv.2) (∅ : Variables)).insert
      "SSH_ASKPASS" ExecutablePath).insert "DISPLAY" "mutagen").insert
      PrompterEnvironmentVariable prompter).insert PrompterContextBase64EnvironmentVariable
      (Base64.EncodeToString (bytes context)),
    fun Format => by simp only [prompterEnvironment, if_neg hp], ?_, ?_, ?_, ?_,
    Base64.DecodeString_EncodeToString _ (bytes_lt context), ?_⟩
  · rw [AList.lookup_insert_ne (by decide), AList.lookup_insert_ne (by decide),
      AList.lookup_insert_ne (by decide), AList.lookup_insert]
  · rw [AList.lookup_insert_ne (by decide), AList.lookup_insert_ne (by decide),
      AList.lookup_insert]
  · rw [AList.lookup_insert_ne (by decide), AList.lookup_insert]
  · rw [AList.lookup_insert]
  · intro name h1 h2 h3 h4
    rw [AList.lookup_insert_ne h4, AList.lookup_insert_ne h3, AList.lookup_insert_ne h2,
      AList.lookup_insert_ne h1, lookup_copy]

theorem prompterEnvironment_variables_witness :
    ∃ result : Variables,
      (∀ Format : Variables → List String,
        prompterEnvironment Format ∅ "/usr/bin/mutagen" "prompter-1" "user@host"
          = some (Format result))
      ∧ result.lookup "SSH_ASKPASS" = some "/usr/bin/mutagen"
      ∧ result.lookup "DISPLAY" = some "mutagen"
      ∧ result.lookup PrompterEnvironmentVariable = some "prompter-1"
      ∧ result.lookup PrompterContextBase64EnvironmentVariable
          = some (Base64.EncodeToString (bytes "user@host"))
      ∧ Base64.DecodeString (Base64.EncodeToString (bytes "user@host"))
          = some (bytes "user@host")
      ∧ ∀ name : String, name ≠ "SSH_ASKPASS" → name ≠ "DISPLAY" →
          name ≠ PrompterEnvironmentVariable →
          name ≠ PrompterContextBase64EnvironmentVariable →
          result.lookup name = (∅ : Variables).lookup name :=
  prompterEnvironment_variables ∅ "/usr/bin/mutagen" "prompter-1" "user@host" (by decide)

end Ssh
